import Mathlib

/-!
Verification of fbuild's core against its specification.

The development shallowly embeds the persistent memoization store
(`lib/fbuild/db/pickle_backend.py`), the console logger
(`lib/fbuild/console.py`) and the ocaml dependency extractor's
path-collection loop (`lib/fbuild/builders/ocaml.py`).

Python dictionaries are modelled as association lists with Python's
semantics: lookup finds the first (unique) occurrence of a key, insertion
replaces the value of an existing key in place and otherwise appends at
the end, deletion removes the key.  The bound-argument and result values
stored by the call cache are type parameters `B` and `R`; Python's
structural equality on bound arguments is the decidable equality of `B`.
File modification times are modelled as integers (the backend only stores
and returns them, never computes with them).
-/

namespace Fbuild

/-- Python dict lookup: the value at the first occurrence of the key,
`none` when the key is absent (a raised `KeyError` in branches that do
not catch it). -/
def dlookup {α β : Type} [DecidableEq α] : List (α × β) → α → Option β
  | [], _ => none
  | (k, v) :: rest, key => if k = key then some v else dlookup rest key

/-- Python dict assignment `d[key] = v`: replaces the value at an existing
key in place, otherwise appends the new binding at the end. -/
def dinsert {α β : Type} [DecidableEq α] : List (α × β) → α → β → List (α × β)
  | [], key, v => [(key, v)]
  | (k, w) :: rest, key, v =>
    if k = key then (k, v) :: rest else (k, w) :: dinsert rest key v

/-- Python dict deletion `del d[key]` (as used under `try ... except
KeyError: pass`): removes the bindings of the key, leaves the rest. -/
def derase {α β : Type} [DecidableEq α] : List (α × β) → α → List (α × β)
  | [], _ => []
  | (k, v) :: rest, key =>
    if k = key then derase rest key else (k, v) :: derase rest key

/-- The in-memory state of `PickleBackend`: the six relations set up by
`PickleBackend.__init__`.  `B` is the type of bound-argument mappings and
`R` the type of stored results. -/
structure PickleBackend (B R : Type) where
  functions : List (String × String)
  function_calls : List (String × List (B × R))
  files : List (String × (Int × String))
  call_files : List (String × List (String × List (Nat × String)))
  external_srcs : List (String × List (Nat × List String))
  external_dsts : List (String × List (Nat × List String))
deriving DecidableEq

/-- The state built by `PickleBackend.__init__`: all six relations empty. -/
def PickleBackend.empty (B R : Type) : PickleBackend B R :=
  { functions := []
    function_calls := []
    files := []
    call_files := []
    external_srcs := []
    external_dsts := [] }

/-- `PickleBackend.find_function`: the stored digest, or `None` on
`KeyError`. -/
def PickleBackend.find_function {B R : Type} (s : PickleBackend B R)
    (fun_name : String) : Option String :=
  dlookup s.functions fun_name

/-- The loop body of `PickleBackend.delete_function` over `_call_files`:
every value drops its bindings for the function, and entries whose value
became empty are removed. -/
def purge_call_files (cf : List (String × List (String × List (Nat × String))))
    (fun_name : String) : List (String × List (String × List (Nat × String))) :=
  (cf.map (fun p => (p.1, derase p.2 fun_name))).filter
    (fun p => decide (p.2 ≠ []))

/-- `PickleBackend.delete_function`: removes the function from
`_functions`, `_function_calls`, `_external_srcs` and `_external_dsts`
(each `del` guarded by `except KeyError: pass`), and purges it from every
`_call_files` value, dropping values that become empty. -/
def PickleBackend.delete_function {B R : Type} (s : PickleBackend B R)
    (fun_name : String) : PickleBackend B R :=
  { s with
    functions := derase s.functions fun_name
    function_calls := derase s.function_calls fun_name
    external_srcs := derase s.external_srcs fun_name
    external_dsts := derase s.external_dsts fun_name
    call_files := purge_call_files s.call_files fun_name }

/-- `PickleBackend.save_function`: `delete_function` first (the changed
function invalidates all related data), then store the new digest. -/
def PickleBackend.save_function {B R : Type} (s : PickleBackend B R)
    (fun_name : String) (fun_digest : String) : PickleBackend B R :=
  let s0 := s.delete_function fun_name
  { s0 with functions := dinsert s0.functions fun_name fun_digest }

/-- The scan of `PickleBackend.find_call` over the function's call list:
`enumerate` the `(old_bound, old_result)` pairs and return at the first
pair whose bound arguments equal the query. -/
def find_call_in {B R : Type} [DecidableEq B] (bound : B) :
    List (B × R) → Option Nat × Option R
  | [] => (none, none)
  | (old_bound, old_result) :: rest =>
    if bound = old_bound then (some 0, some old_result)
    else
      match find_call_in bound rest with
      | (some index, r) => (some (index + 1), r)
      | (none, r) => (none, r)

/-- `PickleBackend.find_call`: `(None, None)` when the function has no
call list (`KeyError`) or no recorded pair matches, otherwise the index
and result of the first matching pair. -/
def PickleBackend.find_call {B R : Type} [DecidableEq B] (s : PickleBackend B R)
    (function : String) (bound : B) : Option Nat × Option R :=
  match dlookup s.function_calls function with
  | none => (none, none)
  | some datas => find_call_in bound datas

/-- `PickleBackend.save_call`: when the function has no call list, the
call id is ignored and a fresh one-element list is created (returning 0);
otherwise a `None` id appends and an integer id overwrites in place.  An
out-of-range id raises `IndexError`, modelled as `none`.  Call ids are
naturals: the backend only ever receives ids that `find_call` or
`save_call` produced, which are list indices. -/
def PickleBackend.save_call {B R : Type} (s : PickleBackend B R)
    (fun_name : String) (call_id : Option Nat) (bound : B) (result : R) :
    Option (PickleBackend B R × Nat) :=
  match dlookup s.function_calls fun_name with
  | none =>
    some ({ s with function_calls :=
              dinsert s.function_calls fun_name [(bound, result)] }, 0)
  | some datas =>
    match call_id with
    | none =>
      some ({ s with function_calls :=
                dinsert s.function_calls fun_name (datas ++ [(bound, result)]) },
            datas.length)
    | some i =>
      if i < datas.length then
        some ({ s with function_calls :=
                  dinsert s.function_calls fun_name (datas.set i (bound, result)) },
              i)
      else none

/-- `PickleBackend.find_call_file`:
`self._call_files[file_name][fun_name][call_id]`, `None` on any
`KeyError`. -/
def PickleBackend.find_call_file {B R : Type} (s : PickleBackend B R)
    (call_id : Nat) (fun_name : String) (file_name : String) : Option String :=
  match dlookup s.call_files file_name with
  | none => none
  | some g =>
    match dlookup g fun_name with
    | none => none
    | some h => dlookup h call_id

/-- `PickleBackend.save_call_file`: the `setdefault` chain
`_call_files.setdefault(file_name, {}).setdefault(fun_name, {})[call_id]
= digest`. -/
def PickleBackend.save_call_file {B R : Type} (s : PickleBackend B R)
    (call_id : Nat) (fun_name : String) (file_name : String) (digest : String) :
    PickleBackend B R :=
  let g := (dlookup s.call_files file_name).getD []
  let h := (dlookup g fun_name).getD []
  let cf := dinsert s.call_files file_name
    (dinsert g fun_name (dinsert h call_id digest))
  { s with call_files := cf }

/-- `PickleBackend.find_external_srcs`:
`self._external_srcs[fun_name][call_id]`, the empty set on `KeyError`.
Path sets are modelled as lists of paths. -/
def PickleBackend.find_external_srcs {B R : Type} (s : PickleBackend B R)
    (call_id : Nat) (fun_name : String) : List String :=
  match dlookup s.external_srcs fun_name with
  | none => []
  | some m =>
    match dlookup m call_id with
    | none => []
    | some srcs => srcs

/-- `PickleBackend.find_external_dsts`:
`self._external_dsts[fun_name][call_id]`, the empty set on `KeyError`. -/
def PickleBackend.find_external_dsts {B R : Type} (s : PickleBackend B R)
    (call_id : Nat) (fun_name : String) : List String :=
  match dlookup s.external_dsts fun_name with
  | none => []
  | some m =>
    match dlookup m call_id with
    | none => []
    | some dsts => dsts

/-- Modelled from the spec: `Backend.save_call_files` (the base-class
helper called by `save_external_files`) is not under `src/`; per the spec
it "stores ... all digests", recording each `(path, digest)` pair through
`save_call_file`. -/
def PickleBackend.save_call_files {B R : Type} (s : PickleBackend B R)
    (call_id : Nat) (fun_name : String) (digests : List (String × String)) :
    PickleBackend B R :=
  digests.foldl (fun t pd => t.save_call_file call_id fun_name pd.1 pd.2) s

/-- `PickleBackend.save_external_files`: stores the source and
destination path sets under the function and call id, then records all
digests through `save_call_files`. -/
def PickleBackend.save_external_files {B R : Type} (s : PickleBackend B R)
    (fun_name : String) (call_id : Nat) (srcs dsts : List String)
    (digests : List (String × String)) : PickleBackend B R :=
  let es := dinsert s.external_srcs fun_name
    (dinsert ((dlookup s.external_srcs fun_name).getD []) call_id srcs)
  let s1 := { s with external_srcs := es }
  let ed := dinsert s1.external_dsts fun_name
    (dinsert ((dlookup s1.external_dsts fun_name).getD []) call_id dsts)
  let s2 := { s1 with external_dsts := ed }
  s2.save_call_files call_id fun_name digests

/-- `PickleBackend.find_file`: the stored `(mtime, digest)` pair, or
`(None, None)` on `KeyError`. -/
def PickleBackend.find_file {B R : Type} (s : PickleBackend B R)
    (file_name : String) : Option Int × Option String :=
  match dlookup s.files file_name with
  | none => (none, none)
  | some (mtime, digest) => (some mtime, some digest)

/-- `PickleBackend.save_file`: `self._files[file_name] = (mtime, digest)`. -/
def PickleBackend.save_file {B R : Type} (s : PickleBackend B R)
    (file_name : String) (mtime : Int) (digest : String) : PickleBackend B R :=
  { s with files := dinsert s.files file_name (mtime, digest) }

/-- `PickleBackend.delete_file`: removes the file from `_files` and all of
its call files from `_call_files` (both guarded by `except KeyError`). -/
def PickleBackend.delete_file {B R : Type} (s : PickleBackend B R)
    (file_name : String) : PickleBackend B R :=
  { s with
    files := derase s.files file_name
    call_files := derase s.call_files file_name }

/-- The type of the 6-tuple `PickleBackend.save` pickles. -/
def DBDump (B R : Type) : Type :=
  List (String × String) × List (String × List (B × R)) ×
  List (String × (Int × String)) ×
  List (String × List (String × List (Nat × String))) ×
  List (String × List (Nat × List String)) ×
  List (String × List (Nat × List String))

/-- The serialized document `PickleBackend.save` pickles: the 6-tuple
`(functions, function_calls, files, call_files, external_srcs,
external_dsts)`.  Pickling itself is the Python library's; the model's
byte blob is the tuple. -/
def PickleBackend.serialize {B R : Type} (s : PickleBackend B R) : DBDump B R :=
  (s.functions, s.function_calls, s.files, s.call_files,
   s.external_srcs, s.external_dsts)

/-- A filesystem holding blobs of type `α`: each path maps to a file's
contents or to nothing. -/
def FS (α : Type) : Type := String → Option α

/-- Writing a file (`open(path, 'wb')` followed by `f.write`): creates or
truncates the path. -/
def fs_write {α : Type} (fs : FS α) (path : String) (v : α) : FS α :=
  fun q => if q = path then some v else fs q

/-- `os.rename(src, dst)`: `dst` receives `src`'s contents (overwriting
any previous contents) and `src` is gone. -/
def fs_rename {α : Type} (fs : FS α) (src dst : String) : FS α :=
  fun q => if q = dst then fs src else if q = src then none else fs q

/-- `os.remove(path)`. -/
def fs_remove {α : Type} (fs : FS α) (path : String) : FS α :=
  fun q => if q = path then none else fs q

/-- `PickleBackend.save`: serialize the six relations, write the bytes to
`filename + '.tmp'`, rename `filename` to `filename + '.old'` if it
exists, rename the temp file to `filename`, and remove the `.old` file if
it exists. -/
def PickleBackend.save {B R : Type} (s : PickleBackend B R) (filename : String)
    (fs : FS (DBDump B R)) : FS (DBDump B R) :=
  let sBytes := s.serialize
  let tmp := filename ++ ".tmp"
  let old := filename ++ ".old"
  let fs1 := fs_write fs tmp sBytes
  let fs2 := if (fs1 filename).isSome then fs_rename fs1 filename old else fs1
  let fs3 := fs_rename fs2 tmp filename
  if (fs3 old).isSome then fs_remove fs3 old else fs3

/-- The mutating operations of the store's public interface, for stating
reachability by sequences of store operations. -/
inductive Op (B R : Type) where
  | saveFunction (fun_name fun_digest : String)
  | deleteFunction (fun_name : String)
  | saveCall (fun_name : String) (call_id : Option Nat) (bound : B) (result : R)
  | saveCallFile (call_id : Nat) (fun_name file_name digest : String)
  | saveExternalFiles (fun_name : String) (call_id : Nat)
      (srcs dsts : List String) (digests : List (String × String))
  | saveFile (file_name : String) (mtime : Int) (digest : String)
  | deleteFile (file_name : String)

/-- Applying one store operation to a state.  A `save_call` whose call id
is out of range raises in Python; the step keeps the state unchanged in
that case. -/
def step {B R : Type} (s : PickleBackend B R) : Op B R → PickleBackend B R
  | .saveFunction n d => s.save_function n d
  | .deleteFunction n => s.delete_function n
  | .saveCall n id b r =>
    match s.save_call n id b r with
    | some (s2, _) => s2
    | none => s
  | .saveCallFile i n p d => s.save_call_file i n p d
  | .saveExternalFiles n i srcs dsts digests =>
    s.save_external_files n i srcs dsts digests
  | .saveFile p m d => s.save_file p m d
  | .deleteFile p => s.delete_file p

/-- Running a sequence of store operations from a state. -/
def execFrom {B R : Type} (s : PickleBackend B R) (ops : List (Op B R)) :
    PickleBackend B R :=
  ops.foldl step s

/-- Running a sequence of store operations from the freshly initialized
store. -/
def exec {B R : Type} (ops : List (Op B R)) : PickleBackend B R :=
  execFrom (PickleBackend.empty B R) ops

/-- Whether one operation, applied in state `s`, records its call-file
digests only while the file relation currently holds the same digest for
the path. -/
def opConsistent {B R : Type} (s : PickleBackend B R) : Op B R → Bool
  | .saveCallFile _ _ p d =>
    match dlookup s.files p with
    | some (_, d2) => d2 == d
    | none => false
  | .saveExternalFiles _ _ _ _ digests =>
    digests.all (fun pd =>
      match dlookup s.files pd.1 with
      | some (_, d2) => d2 == pd.2
      | none => false)
  | _ => true

/-- Whether every call-file recording in the sequence, run from `s`, is
made while the file relation holds the recorded digest for the path. -/
def rec_consistent {B R : Type} (s : PickleBackend B R) : List (Op B R) → Bool
  | [] => true
  | op :: rest => opConsistent s op && rec_consistent (step s op) rest

/-- Whether an operation records digest `d` for path `p` under function
`n` and call id `i`. -/
def op_records {B R : Type} : Op B R → Nat → String → String → String → Prop
  | .saveCallFile i n p d, i2, n2, p2, d2 =>
    i = i2 ∧ n = n2 ∧ p = p2 ∧ d = d2
  | .saveExternalFiles n i _ _ digests, i2, n2, p2, d2 =>
    i = i2 ∧ n = n2 ∧ (p2, d2) ∈ digests
  | _, _, _, _, _ => False

/-- C6's property as the claim states it, over sequences of store
operations from the fresh store: every call-file entry `(P, F, i) → d`
present in the final state was recorded by some operation of the
sequence at a moment when the file relation held `(mtime, d)` for `P`. -/
def call_file_claim : Prop :=
  ∀ (ops : List (Op Nat Nat)) (i : Nat) (n p d : String),
    (exec ops).find_call_file i n p = some d →
    ∃ t, t < ops.length ∧
      (∃ op, ops.get? t = some op ∧ op_records op i n p d) ∧
      ∃ m, dlookup (exec (ops.take t)).files p = some (m, d)

/-- Python's `str.ljust`: pad on the right with spaces to the width; a
string at least as long is returned unchanged. -/
def ljust (s : String) (width : Nat) : String :=
  s ++ String.mk (List.replicate (width - s.length) ' ')

/-- The `colorcodes` table of `fbuild.console`. -/
def colorcodes : List (String × Nat) :=
  [("black", 30), ("red", 31), ("green", 32), ("yellow", 33),
   ("blue", 34), ("magenta", 35), ("cyan", 36), ("white", 37)]

/-- `fbuild.console.color_str`: wrap the string in an ANSI escape when a
known color is given and the platform is not win32, otherwise return it
unchanged.  `isWin32` stands for `sys.platform == 'win32'`. -/
def color_str (isWin32 : Bool) (s : String) (color : Option String) : String :=
  match color with
  | none => s
  | some c =>
    if isWin32 then s
    else
      match dlookup colorcodes c with
      | none => s
      | some code =>
        "\x1b[01;" ++ toString code ++ "m" ++ s ++ "\x1b[0m"

/-- The state of `fbuild.console.Log` that `check` and `_write` read and
update: the verbosity setting, the color switches, and the running label
column maximum. -/
structure Log where
  verbose : Nat
  nocolor : Bool
  show_threads : Bool
  maxlen : Nat
deriving DecidableEq

/-- `Log.__init__`: `maxlen` starts at 25. -/
def Log.init (verbose : Nat) (nocolor : Bool) (show_threads : Bool) : Log :=
  { verbose := verbose, nocolor := nocolor, show_threads := show_threads,
    maxlen := 25 }

/-- The label `Log.check` works on: the message, prefixed with the
current thread's name padded to 10 columns when `show_threads` is set. -/
def Log.eff (lg : Log) (thread_name msg : String) : String :=
  if lg.show_threads then ljust thread_name 10 ++ ": " ++ msg else msg

/-- The label handling of `Log.check`: grow `maxlen` to
`min(len(msg) + 1, 40)` when the label reaches it, then emit the label
left-justified to `maxlen` followed by the separating colon.  Returns the
updated log state and the emitted label text (the subsequent `write`
calls receive this text unchanged). -/
def Log.check (lg : Log) (thread_name msg : String) : Log × String :=
  let m := lg.eff thread_name msg
  let d := m.length
  let maxlen := if d ≥ lg.maxlen then min (d + 1) 40 else lg.maxlen
  ({ lg with maxlen := maxlen }, ljust m maxlen ++ ": ")

/-- What one `Log._write` call appends to the log file and to stdout. -/
structure WriteOut where
  logfile : String
  stdout : String
deriving DecidableEq

/-- `Log._write`: the message goes to the log file verbatim; it goes to
stdout only when its verbose level is within the logger's verbosity,
colored unless `nocolor` is set. -/
def Log.write_out (isWin32 : Bool) (lg : Log) (msg : String)
    (color : Option String) (verbose : Nat) : WriteOut :=
  { logfile := msg
    stdout :=
      if verbose ≤ lg.verbose then
        if ¬ lg.nocolor then color_str isWin32 msg color else msg
      else "" }

/-- The path-collection loop of `Ocamldep.__call__` (after the external
tool ran and its output was parsed): list the directory of the source
(`os.path.dirname(src) or '.'`) into `dirs`, then collect, in order and
without duplicates, the parsed dependencies of `src`.  `dirname` stands
for `os.path.dirname`, `listdir` for `os.listdir`, and `depmap` for the
mapping parsed from the dependency file. -/
def ocamldep_paths (dirname : String → String) (listdir : String → List String)
    (src : String) (includes flags : List String)
    (depmap : String → Option (List String)) : List String :=
  let include_path := if dirname src = "" then "." else dirname src
  let dirs := listdir include_path
  let deps := (depmap src).getD []
  deps.foldl (fun paths path =>
    if path ∈ paths then paths else paths ++ [path]) []

/-- A concrete store with one recorded call of `f` (used to evaluate the
round-trip theorem on an input). -/
def c5_state : PickleBackend Nat Nat :=
  { PickleBackend.empty Nat Nat with function_calls := [("f", [(1, 10)])] }

/-- The store `c5_state` after appending the call `(2, 20)` to `f`. -/
def c5_state2 : PickleBackend Nat Nat :=
  { PickleBackend.empty Nat Nat with
    function_calls := [("f", [(1, 10), (2, 20)])] }

/-- A concrete store with call-file entries under two functions (used to
evaluate the purge theorem on an input). -/
def c2_state : PickleBackend Nat Nat :=
  { PickleBackend.empty Nat Nat with
    functions := [("f", "a"), ("g", "b")]
    call_files := [("p", [("f", [(0, "d")]), ("g", [(1, "e")])])] }

/-- The one-operation sequence that records a call-file entry while the
file relation has never held anything: the concrete input refuting C6 as
stated. -/
def c6_ops : List (Op Nat Nat) := [Op.saveCallFile 0 "f" "p" "d"]

/-- A consistently recorded two-operation sequence: the file's digest is
saved first, then the call-file entry (used to evaluate the amended C6
theorem on an input). -/
def c6_ops2 : List (Op Nat Nat) :=
  [Op.saveFile "p" 3 "d", Op.saveCallFile 0 "f" "p" "d"]

/-- A 41-character label: long enough that `Log.check`'s column maximum
clips at 40 while the label itself is longer. -/
def long_label : String := String.mk (List.replicate 41 'a')

/-! ### Association-list (Python dict) lemmas -/

theorem dlookup_dinsert_self {α β : Type} [DecidableEq α]
    (l : List (α × β)) (k : α) (v : β) :
    dlookup (dinsert l k v) k = some v := by
  induction l with
  | nil => simp [dinsert, dlookup]
  | cons p rest ih =>
    obtain ⟨k0, v0⟩ := p
    by_cases h : k0 = k
    · simp [dinsert, dlookup, h]
    · simp [dinsert, dlookup, h, ih]

theorem dlookup_dinsert_of_ne {α β : Type} [DecidableEq α]
    (l : List (α × β)) (k : α) (v : β) (k2 : α) (h : k2 ≠ k) :
    dlookup (dinsert l k v) k2 = dlookup l k2 := by
  have hs : ¬ k = k2 := fun hh => h hh.symm
  induction l with
  | nil => simp [dinsert, dlookup, hs]
  | cons p rest ih =>
    obtain ⟨k0, v0⟩ := p
    by_cases hk : k0 = k
    · subst hk
      simp [dinsert, dlookup, hs]
    · simp only [dinsert, if_neg hk, dlookup]
      by_cases hq : k0 = k2
      · simp [dlookup, hq]
      · simp [dlookup, hq, ih]

theorem dlookup_derase_self {α β : Type} [DecidableEq α]
    (l : List (α × β)) (k : α) :
    dlookup (derase l k) k = none := by
  induction l with
  | nil => simp [derase, dlookup]
  | cons p rest ih =>
    obtain ⟨k0, v0⟩ := p
    by_cases h : k0 = k
    · simp [derase, h, ih]
    · simp [derase, dlookup, h, ih]

theorem dlookup_derase_of_ne {α β : Type} [DecidableEq α]
    (l : List (α × β)) (k : α) (k2 : α) (h : k2 ≠ k) :
    dlookup (derase l k) k2 = dlookup l k2 := by
  have hs : ¬ k = k2 := fun hh => h hh.symm
  induction l with
  | nil => simp [derase]
  | cons p rest ih =>
    obtain ⟨k0, v0⟩ := p
    by_cases hk : k0 = k
    · subst hk
      simp [derase, dlookup, hs, ih]
    · simp only [derase, if_neg hk, dlookup]
      by_cases hq : k0 = k2
      · simp [hq]
      · simp [hq, ih]

theorem dlookup_none_iff {α β : Type} [DecidableEq α]
    (l : List (α × β)) (k : α) :
    dlookup l k = none ↔ ∀ p ∈ l, p.1 ≠ k := by
  induction l with
  | nil => simp [dlookup]
  | cons p rest ih =>
    obtain ⟨k0, v0⟩ := p
    by_cases h : k0 = k
    · simp [dlookup, h]
    · simp [dlookup, h, ih]

theorem dlookup_mem {α β : Type} [DecidableEq α]
    {l : List (α × β)} {k : α} {v : β} (h : dlookup l k = some v) :
    (k, v) ∈ l := by
  induction l with
  | nil => simp [dlookup] at h
  | cons p rest ih =>
    obtain ⟨k0, v0⟩ := p
    by_cases hk : k0 = k
    · subst hk
      simp [dlookup] at h
      subst h
      exact List.mem_cons_self _ _
    · simp only [dlookup, if_neg hk] at h
      exact List.mem_cons_of_mem _ (ih h)

theorem derase_eq_of_none {α β : Type} [DecidableEq α]
    {l : List (α × β)} {k : α} (h : dlookup l k = none) :
    derase l k = l := by
  induction l with
  | nil => simp [derase]
  | cons p rest ih =>
    obtain ⟨k0, v0⟩ := p
    by_cases hk : k0 = k
    · simp [dlookup, hk] at h
    · simp only [dlookup, if_neg hk] at h
      simp [derase, hk, ih h]

theorem dinsert_eq_append_of_none {α β : Type} [DecidableEq α]
    {l : List (α × β)} {k : α} (v : β) (h : dlookup l k = none) :
    dinsert l k v = l ++ [(k, v)] := by
  induction l with
  | nil => simp [dinsert]
  | cons p rest ih =>
    obtain ⟨k0, v0⟩ := p
    by_cases hk : k0 = k
    · simp [dlookup, hk] at h
    · simp only [dlookup, if_neg hk] at h
      simp [dinsert, hk, ih h]

theorem derase_nil_lookup {α β : Type} [DecidableEq α]
    {l : List (α × β)} {k : α} (h : derase l k = []) (m : α) (hm : m ≠ k) :
    dlookup l m = none := by
  induction l with
  | nil => simp [dlookup]
  | cons p rest ih =>
    obtain ⟨k0, v0⟩ := p
    by_cases hk : k0 = k
    · subst hk
      have hs : ¬ k0 = m := fun hh => hm hh.symm
      simp only [derase, if_pos rfl] at h
      simp [dlookup, hs, ih h]
    · simp [derase, hk] at h

/-! ### C1: the atomic five-step commit of `PickleBackend.save` -/

theorem append_tmp_ne (f : String) : ¬ f = f ++ ".tmp" := by
  intro h
  have h2 : f.length = (f ++ ".tmp").length := congrArg String.length h
  rw [String.length_append] at h2
  have h4 : (".tmp" : String).length = 4 := rfl
  omega

theorem append_old_ne (f : String) : ¬ f = f ++ ".old" := by
  intro h
  have h2 : f.length = (f ++ ".old").length := congrArg String.length h
  rw [String.length_append] at h2
  have h4 : (".old" : String).length = 4 := rfl
  omega

theorem append_tmp_ne_old (f : String) : ¬ f ++ ".tmp" = f ++ ".old" := by
  intro h
  have h2 : (f ++ ".tmp").data = (f ++ ".old").data := congrArg String.data h
  rw [String.data_append, String.data_append] at h2
  have h3 := List.append_cancel_left h2
  exact absurd (congrArg (List.get? · 1) h3) (by decide)

/-- C1: for every in-memory state of the six relations and every
filename, `PickleBackend.save filename` performs the five-step commit
(serialize the 6-tuple; write it to `filename + '.tmp'`; rename
`filename` to `filename + '.old'` if it exists; rename the temp file to
`filename`; remove the `.old` file), so that afterwards `filename` holds
the newly serialized state and neither the `.tmp` nor the `.old` sibling
remains on disk. -/
theorem save_commit_postcondition {B R : Type} (s : PickleBackend B R)
    (fs : FS (DBDump B R)) (filename : String) :
    s.save filename fs filename = some s.serialize ∧
    s.save filename fs (filename ++ ".tmp") = none ∧
    s.save filename fs (filename ++ ".old") = none := by
  have h1 := append_tmp_ne filename
  have h2 := append_old_ne filename
  have h3 := append_tmp_ne_old filename
  have h4 : ¬ filename ++ ".old" = filename ++ ".tmp" := fun h => h3 h.symm
  have h1s : ¬ filename ++ ".tmp" = filename := fun h => h1 h.symm
  have h2s : ¬ filename ++ ".old" = filename := fun h => h2 h.symm
  simp only [PickleBackend.save]
  refine ⟨?_, ?_, ?_⟩ <;>
  · split_ifs <;>
      simp_all [fs_write, fs_rename, fs_remove, Option.not_isSome_iff_eq_none]

/-! ### C8: the log file receives the uncolored message -/

/-- C8: for every message written through the logger, whatever the color
argument and however its verbose level compares to the logger's
verbosity, `Log._write` appends the exact message string to the log
file; coloring (when the level passes and `nocolor` is unset) is applied
only to the stdout stream. -/
theorem write_logfile_verbatim (isWin32 : Bool) (lg : Log) (msg : String)
    (color : Option String) (verbose : Nat) :
    (Log.write_out isWin32 lg msg color verbose).logfile = msg ∧
    (lg.verbose < verbose → (Log.write_out isWin32 lg msg color verbose).stdout = "") ∧
    (verbose ≤ lg.verbose → lg.nocolor = true →
      (Log.write_out isWin32 lg msg color verbose).stdout = msg) ∧
    (verbose ≤ lg.verbose → lg.nocolor = false →
      (Log.write_out isWin32 lg msg color verbose).stdout = color_str isWin32 msg color) := by
  refine ⟨rfl, ?_, ?_, ?_⟩
  · intro h
    simp [Log.write_out, Nat.not_le.mpr h]
  · intro h hn
    simp [Log.write_out, h, hn]
  · intro h hn
    simp [Log.write_out, h, hn]

/-! ### C9: the directory listing does not influence the returned paths -/

/-- C9: the list of paths `Ocamldep.__call__` returns is determined
solely by the source and the parsed dependency file: two runs that
differ only in the directory listing returned by `os.listdir` produce
identical path lists. -/
theorem ocamldep_paths_ignore_listdir (dirname : String → String)
    (listdir1 listdir2 : String → List String) (src : String)
    (includes flags : List String) (depmap : String → Option (List String)) :
    ocamldep_paths dirname listdir1 src includes flags depmap =
    ocamldep_paths dirname listdir2 src includes flags depmap := rfl

/-! ### Lemmas on the `delete_function` purge of `_call_files` -/

theorem dlookup_none_of_not_mem_keys {α β : Type} [DecidableEq α]
    {l : List (α × β)} {k : α} (h : k ∉ l.map Prod.fst) :
    dlookup l k = none := by
  rw [dlookup_none_iff]
  intro p hp hk
  exact h (hk ▸ List.mem_map_of_mem Prod.fst hp)

theorem keys_derase_sublist {α β : Type} [DecidableEq α]
    (l : List (α × β)) (k : α) :
    ((derase l k).map Prod.fst).Sublist (l.map Prod.fst) := by
  induction l with
  | nil => simp [derase]
  | cons p rest ih =>
    obtain ⟨k0, v0⟩ := p
    by_cases h : k0 = k
    · simp only [derase, if_pos h, List.map_cons]
      exact ih.cons k0
    · simp only [derase, if_neg h, List.map_cons]
      exact ih.cons₂ k0

theorem purge_cons (k : String) (g0 : List (String × List (Nat × String)))
    (rest : List (String × List (String × List (Nat × String)))) (n : String) :
    purge_call_files ((k, g0) :: rest) n =
    (if derase g0 n = [] then purge_call_files rest n
     else (k, derase g0 n) :: purge_call_files rest n) := by
  simp only [purge_call_files, List.map_cons, List.filter_cons]
  by_cases hE : derase g0 n = []
  · simp [hE]
  · simp [hE]

theorem keys_purge_sublist
    (cf : List (String × List (String × List (Nat × String)))) (n : String) :
    ((purge_call_files cf n).map Prod.fst).Sublist (cf.map Prod.fst) := by
  have h3 : ((purge_call_files cf n).map Prod.fst).Sublist
      ((cf.map (fun p => (p.1, derase p.2 n))).map Prod.fst) :=
    (List.filter_sublist _).map Prod.fst
  rw [List.map_map] at h3
  exact h3

theorem purge_lookup_derased {cf : List (String × List (String × List (Nat × String)))}
    {n p : String} {g : List (String × List (Nat × String))}
    (h : dlookup (purge_call_files cf n) p = some g) :
    dlookup g n = none := by
  have hm := dlookup_mem h
  rw [purge_call_files, List.mem_filter] at hm
  obtain ⟨q, _, hq⟩ := List.mem_map.1 hm.1
  have hg : g = derase q.2 n := congrArg Prod.snd hq.symm
  rw [hg]
  exact dlookup_derase_self _ _

theorem purge_bind_of_nodup
    {cf : List (String × List (String × List (Nat × String)))}
    (hnd : (cf.map Prod.fst).Nodup) (n m p : String) (hm : m ≠ n) :
    (dlookup (purge_call_files cf n) p).bind (fun g => dlookup g m) =
    (dlookup cf p).bind (fun g => dlookup g m) := by
  induction cf with
  | nil => simp [purge_call_files, dlookup]
  | cons q rest ih =>
    obtain ⟨k, g0⟩ := q
    simp only [List.map_cons, List.nodup_cons] at hnd
    obtain ⟨hk, hrest⟩ := hnd
    rw [purge_cons]
    by_cases hE : derase g0 n = []
    · rw [if_pos hE]
      by_cases hp : k = p
      · subst hp
        have hout : dlookup (purge_call_files rest n) k = none := by
          apply dlookup_none_of_not_mem_keys
          intro hmem
          exact hk ((keys_purge_sublist rest n).subset hmem)
        rw [hout]
        simp only [dlookup, if_pos rfl, Option.none_bind, Option.some_bind]
        exact (derase_nil_lookup hE m hm).symm
      · conv_rhs => rw [show dlookup ((k, g0) :: rest) p = dlookup rest p by
          simp [dlookup, hp]]
        exact ih hrest
    · rw [if_neg hE]
      by_cases hp : k = p
      · subst hp
        simp only [dlookup, if_pos rfl, Option.some_bind]
        exact dlookup_derase_of_ne _ _ _ hm
      · simp only [dlookup, if_neg hp]
        exact ih hrest

theorem purge_eq_self {cf : List (String × List (String × List (Nat × String)))}
    {n : String} (h1 : ∀ q ∈ cf, dlookup q.2 n = none)
    (h2 : ∀ q ∈ cf, q.2 ≠ []) :
    purge_call_files cf n = cf := by
  induction cf with
  | nil => rfl
  | cons q rest ih =>
    obtain ⟨k, g0⟩ := q
    have e0 : derase g0 n = g0 :=
      derase_eq_of_none (h1 (k, g0) (List.mem_cons_self _ _))
    have e1 : ¬ derase g0 n = [] := by
      rw [e0]
      exact h2 (k, g0) (List.mem_cons_self _ _)
    rw [purge_cons, if_neg e1, e0]
    rw [ih (fun q hq => h1 q (List.mem_cons_of_mem _ hq))
          (fun q hq => h2 q (List.mem_cons_of_mem _ hq))]

/-! ### C2: `save_function` replaces the record and purges the name -/

/-- C2: after `save_function name digest`, `find_function name` returns
the digest, no function-call record, external-srcs set, external-dsts
set, or call-file entry keyed by `name` remains, and every record keyed
by any other function name (as well as the file relation) is unchanged.
The hypothesis states that the `_call_files` dict has no duplicate keys,
as Python dicts cannot. -/
theorem save_function_replaces_and_purges {B R : Type}
    (s : PickleBackend B R) (n dg : String)
    (hnd : (s.call_files.map Prod.fst).Nodup) :
    (s.save_function n dg).find_function n = some dg ∧
    dlookup (s.save_function n dg).function_calls n = none ∧
    dlookup (s.save_function n dg).external_srcs n = none ∧
    dlookup (s.save_function n dg).external_dsts n = none ∧
    (∀ p g, dlookup (s.save_function n dg).call_files p = some g →
      dlookup g n = none) ∧
    (∀ m, m ≠ n →
      dlookup (s.save_function n dg).functions m = dlookup s.functions m ∧
      dlookup (s.save_function n dg).function_calls m =
        dlookup s.function_calls m ∧
      dlookup (s.save_function n dg).external_srcs m =
        dlookup s.external_srcs m ∧
      dlookup (s.save_function n dg).external_dsts m =
        dlookup s.external_dsts m ∧
      ∀ p, (dlookup (s.save_function n dg).call_files p).bind
          (fun g => dlookup g m) =
        (dlookup s.call_files p).bind (fun g => dlookup g m)) ∧
    (s.save_function n dg).files = s.files := by
  refine ⟨?_, ?_, ?_, ?_, ?_, ?_, rfl⟩
  · exact dlookup_dinsert_self _ _ _
  · exact dlookup_derase_self _ _
  · exact dlookup_derase_self _ _
  · exact dlookup_derase_self _ _
  · intro p g hg
    exact purge_lookup_derased hg
  · intro m hmn
    refine ⟨?_, ?_, ?_, ?_, ?_⟩
    · rw [show (s.save_function n dg).functions =
            dinsert (derase s.functions n) n dg from rfl]
      rw [dlookup_dinsert_of_ne _ _ _ _ hmn, dlookup_derase_of_ne _ _ _ hmn]
    · exact dlookup_derase_of_ne _ _ _ hmn
    · exact dlookup_derase_of_ne _ _ _ hmn
    · exact dlookup_derase_of_ne _ _ _ hmn
    · intro p
      exact purge_bind_of_nodup hnd n m p hmn

/-- C2 witness: the purge theorem evaluated on the concrete store
`c2_state`, whose call-file relation has entries under both `f` and `g`. -/
theorem save_function_replaces_and_purges_witness :
    (c2_state.save_function "f" "D").find_function "f" = some "D" :=
  (save_function_replaces_and_purges c2_state "f" "D" (by decide)).1

/-! ### C10: queries and deletions are total on absent keys -/

/-- C10: every query of the public interface returns its sentinel value
on an absent key instead of raising (`None` for `find_function` and
`find_call_file`, `(None, None)` for `find_call` and `find_file`, the
empty set for the external-file queries), and `delete_function` and
`delete_file` leave the store unchanged when the key is absent (for
`delete_function`, absent from all four function-keyed relations and
from every call-file group, no group being empty, as holds in every
store the interface can build). -/
theorem queries_total_on_absent_keys {B R : Type} [DecidableEq B]
    (s : PickleBackend B R) (n p : String) (i : Nat) (b : B) :
    (dlookup s.functions n = none → s.find_function n = none) ∧
    (dlookup s.function_calls n = none → s.find_call n b = (none, none)) ∧
    (dlookup s.call_files p = none → s.find_call_file i n p = none) ∧
    (∀ g, dlookup s.call_files p = some g → dlookup g n = none →
      s.find_call_file i n p = none) ∧
    (∀ g h2, dlookup s.call_files p = some g → dlookup g n = some h2 →
      dlookup h2 i = none → s.find_call_file i n p = none) ∧
    (dlookup s.external_srcs n = none → s.find_external_srcs i n = []) ∧
    (∀ m2, dlookup s.external_srcs n = some m2 → dlookup m2 i = none →
      s.find_external_srcs i n = []) ∧
    (dlookup s.external_dsts n = none → s.find_external_dsts i n = []) ∧
    (∀ m2, dlookup s.external_dsts n = some m2 → dlookup m2 i = none →
      s.find_external_dsts i n = []) ∧
    (dlookup s.files p = none → s.find_file p = (none, none)) ∧
    (dlookup s.functions n = none → dlookup s.function_calls n = none →
      dlookup s.external_srcs n = none → dlookup s.external_dsts n = none →
      (∀ q ∈ s.call_files, dlookup q.2 n = none) →
      (∀ q ∈ s.call_files, q.2 ≠ []) →
      s.delete_function n = s) ∧
    (dlookup s.files p = none → dlookup s.call_files p = none →
      s.delete_file p = s) := by
  refine ⟨?_, ?_, ?_, ?_, ?_, ?_, ?_, ?_, ?_, ?_, ?_, ?_⟩
  · intro h
    simp [PickleBackend.find_function, h]
  · intro h
    simp [PickleBackend.find_call, h]
  · intro h
    simp [PickleBackend.find_call_file, h]
  · intro g hg h
    simp [PickleBackend.find_call_file, hg, h]
  · intro g h2 hg hh h
    simp [PickleBackend.find_call_file, hg, hh, h]
  · intro h
    simp [PickleBackend.find_external_srcs, h]
  · intro m2 hm h
    simp [PickleBackend.find_external_srcs, hm, h]
  · intro h
    simp [PickleBackend.find_external_dsts, h]
  · intro m2 hm h
    simp [PickleBackend.find_external_dsts, hm, h]
  · intro h
    simp [PickleBackend.find_file, h]
  · intro h1 h2 h3 h4 h5 h6
    simp [PickleBackend.delete_function, derase_eq_of_none h1,
      derase_eq_of_none h2, derase_eq_of_none h3, derase_eq_of_none h4,
      purge_eq_self h5 h6]
  · intro h1 h2
    simp [PickleBackend.delete_file, derase_eq_of_none h1,
      derase_eq_of_none h2]

/-! ### Lemmas on the scan of `find_call` -/

theorem find_call_in_shape {B R : Type} [DecidableEq B] (b : B)
    (l : List (B × R)) :
    find_call_in b l = (none, none) ∨
    ∃ i r, find_call_in b l = (some i, some r) := by
  induction l with
  | nil => exact Or.inl rfl
  | cons q rest ih =>
    obtain ⟨b0, r0⟩ := q
    by_cases hb : b = b0
    · exact Or.inr ⟨0, r0, by simp [find_call_in, hb]⟩
    · rcases ih with h | ⟨i, r, h⟩
      · exact Or.inl (by simp [find_call_in, hb, h])
      · exact Or.inr ⟨i + 1, r, by simp [find_call_in, hb, h]⟩

theorem find_call_in_none_iff {B R : Type} [DecidableEq B] (b : B)
    (l : List (B × R)) :
    find_call_in b l = (none, none) ↔ ∀ q ∈ l, ¬ q.1 = b := by
  induction l with
  | nil => simp [find_call_in]
  | cons q rest ih =>
    obtain ⟨b0, r0⟩ := q
    by_cases hb : b = b0
    · subst hb
      simp [find_call_in]
    · have hb2 : ¬ b0 = b := fun hh => hb hh.symm
      simp only [find_call_in, if_neg hb]
      constructor
      · intro h q hq
        cases hfc : find_call_in b rest with
        | mk fst snd =>
          rw [hfc] at h
          cases fst with
          | some i => simp at h
          | none =>
            have hsnd : snd = none := by simpa using h
            rcases List.mem_cons.1 hq with rfl | hq2
            · exact hb2
            · exact (ih.1 (by rw [hfc, hsnd])) q hq2
      · intro h
        have hrest : find_call_in b rest = (none, none) :=
          ih.2 (fun q hq => h q (List.mem_cons_of_mem _ hq))
        rw [hrest]

theorem find_call_in_some_iff {B R : Type} [DecidableEq B] (b : B)
    (l : List (B × R)) (i : Nat) (r : R) :
    find_call_in b l = (some i, some r) ↔
    (l.get? i = some (b, r) ∧
      ∀ j, j < i → ∀ q, l.get? j = some q → ¬ q.1 = b) := by
  induction l generalizing i with
  | nil =>
    simp [find_call_in]
  | cons q rest ih =>
    obtain ⟨b0, r0⟩ := q
    by_cases hb : b = b0
    · subst hb
      cases i with
      | zero =>
        simp only [find_call_in, if_pos rfl, List.get?]
        constructor
        · intro h
          have h2 : ((some 0 : Option Nat), (some r0 : Option R)) =
              (some 0, some r) := h
          have h3 : r0 = r := Option.some.inj (congrArg Prod.snd h2)
          subst h3
          exact ⟨rfl, fun j hj => absurd hj (Nat.not_lt_zero j)⟩
        · rintro ⟨h1, _⟩
          have h2 : (b, r0) = (b, r) := Option.some.inj h1
          have h3 : r0 = r := congrArg Prod.snd h2
          subst h3
          rfl
      | succ k =>
        simp only [find_call_in, if_pos rfl]
        constructor
        · intro h
          have h1 : some 0 = some (k + 1) := congrArg Prod.fst h
          exact absurd (Option.some.inj h1) (by omega)
        · rintro ⟨h1, h2⟩
          exact absurd rfl (h2 0 (Nat.succ_pos k) (b, r0) rfl)
    · have hb2 : ¬ b0 = b := fun hh => hb hh.symm
      cases i with
      | zero =>
        simp only [find_call_in, if_neg hb, List.get?]
        constructor
        · intro h
          rcases find_call_in_shape b rest with hs | ⟨i2, r2, hs⟩ <;> rw [hs] at h
          · have h1 : (none : Option Nat) = some 0 := congrArg Prod.fst h
            exact absurd h1 (by simp)
          · have h1 : some (i2 + 1) = some 0 := congrArg Prod.fst h
            exact absurd (Option.some.inj h1) (by omega)
        · rintro ⟨h1, _⟩
          have h2 : (b0, r0) = (b, r) := Option.some.inj h1
          exact absurd (congrArg Prod.fst h2) hb2
      | succ k =>
        simp only [find_call_in, if_neg hb]
        have hstep : (match find_call_in b rest with
            | (some index, r) => (some (index + 1), r)
            | (none, r) => ((none : Option Nat), r)) = (some (k + 1), some r) ↔
            find_call_in b rest = (some k, some r) := by
          rcases find_call_in_shape b rest with hs | ⟨i2, r2, hs⟩ <;> rw [hs]
          · simp
          · constructor
            · intro h
              have h0 : ((some (i2 + 1) : Option Nat), (some r2 : Option R)) =
                  (some (k + 1), some r) := h
              have h1 : some (i2 + 1) = some (k + 1) := congrArg Prod.fst h0
              have h2 : some r2 = some r := congrArg Prod.snd h0
              have h3 : i2 = k := by
                have := Option.some.inj h1
                omega
              rw [h3, h2]
            · intro h
              have h1 : some i2 = some k := congrArg Prod.fst h
              have h2 : some r2 = some r := congrArg Prod.snd h
              have h3 : i2 = k := Option.some.inj h1
              show ((some (i2 + 1) : Option Nat), (some r2 : Option R)) =
                (some (k + 1), some r)
              rw [h3, h2]
        rw [hstep, ih k]
        constructor
        · rintro ⟨h1, h2⟩
          refine ⟨h1, ?_⟩
          intro j hj q hq
          cases j with
          | zero =>
            have hq2 : (b0, r0) = q := Option.some.inj hq
            rw [← hq2]
            exact hb2
          | succ j2 =>
            exact h2 j2 (Nat.lt_of_succ_lt_succ hj) q hq
        · rintro ⟨h1, h2⟩
          refine ⟨h1, ?_⟩
          intro j hj q hq
          exact h2 (j + 1) (Nat.succ_lt_succ hj) q hq

theorem find_call_in_append_last {B R : Type} [DecidableEq B] (b : B) (r : R)
    (l : List (B × R)) (h : ∀ q ∈ l, ¬ q.1 = b) :
    find_call_in b (l ++ [(b, r)]) = (some l.length, some r) := by
  induction l with
  | nil => simp [find_call_in]
  | cons q rest ih =>
    obtain ⟨b0, r0⟩ := q
    have hb : ¬ b = b0 := fun hh => h (b0, r0) (List.mem_cons_self _ _) hh.symm
    have ih2 := ih (fun q hq => h q (List.mem_cons_of_mem _ hq))
    simp only [List.cons_append, find_call_in, if_neg hb]
    have ih3 : find_call_in b (rest.append [(b, r)]) = (some rest.length, some r) :=
      ih2
    rw [ih3]
    rfl

theorem find_call_congr {B R : Type} [DecidableEq B] (s : PickleBackend B R)
    (f : String) (b : B) (datas : List (B × R))
    (h : dlookup s.function_calls f = some datas) :
    s.find_call f b = find_call_in b datas := by
  unfold PickleBackend.find_call
  rw [h]

/-! ### C3: `find_call` returns the first structurally equal call -/

/-- C3: `find_call name bound` returns `(i, result)` exactly when `i` is
the lowest index in the function's recorded call list whose stored bound
arguments are structurally equal to the query and `result` is stored at
that index; it returns `(None, None)` exactly when the function has no
call list or no recorded pair matches, and it returns nothing else. -/
theorem find_call_characterization {B R : Type} [DecidableEq B]
    (s : PickleBackend B R) (f : String) (b : B) :
    (∀ i r, s.find_call f b = (some i, some r) ↔
      ∃ datas, dlookup s.function_calls f = some datas ∧
        datas.get? i = some (b, r) ∧
        ∀ j, j < i → ∀ q, datas.get? j = some q → ¬ q.1 = b) ∧
    (s.find_call f b = (none, none) ↔
      ∀ datas, dlookup s.function_calls f = some datas →
        ∀ q ∈ datas, ¬ q.1 = b) ∧
    (s.find_call f b = (none, none) ∨
      ∃ i r, s.find_call f b = (some i, some r)) := by
  unfold PickleBackend.find_call
  cases hd : dlookup s.function_calls f with
  | none =>
    refine ⟨?_, ?_, Or.inl rfl⟩
    · intro i r
      constructor
      · intro h
        exact absurd (congrArg Prod.fst h) (by simp)
      · rintro ⟨datas, hdat, _⟩
        exact absurd hdat (by simp)
    · simp
  | some datas =>
    refine ⟨?_, ?_, find_call_in_shape b datas⟩
    · intro i r
      rw [find_call_in_some_iff]
      constructor
      · intro h
        exact ⟨datas, rfl, h⟩
      · rintro ⟨datas2, hdat, h⟩
        have h2 : datas2 = datas := by simpa using hdat.symm
        exact h2 ▸ h
    · rw [find_call_in_none_iff]
      constructor
      · intro h datas2 hdat
        have h2 : datas2 = datas := by simpa using hdat.symm
        exact h2 ▸ h
      · intro h
        exact h datas rfl

/-! ### C4: `save_call` appends, overwrites, or starts over -/

/-- C4 counterexample: on the empty store (where `f` has no call list),
`save_call "f" 1 3 7` does not overwrite position 1: it ignores the
supplied id, creates the one-element list `[(3, 7)]` (which has no entry
at position 1) and returns 0, not 1. -/
theorem save_call_counterexample :
    PickleBackend.save_call (PickleBackend.empty Nat Nat) "f" (some 1) 3 7 =
      some ({ PickleBackend.empty Nat Nat with
                function_calls := [("f", [(3, 7)])] }, 0) ∧
    dlookup [("f", [((3 : Nat), (7 : Nat))])] "f" = some [(3, 7)] ∧
    [((3 : Nat), (7 : Nat))].get? 1 = none ∧
    ¬ (0 : Nat) = 1 := by
  refine ⟨rfl, rfl, rfl, by decide⟩

theorem get?_set_self {α : Type} (l : List α) (i : Nat) (a : α)
    (h : i < l.length) : (l.set i a).get? i = some a := by
  induction l generalizing i with
  | nil => simp at h
  | cons x rest ih =>
    cases i with
    | zero => rfl
    | succ k => simpa using ih k (by simpa using h)

/-- C4 (amended): `save_call name id bound result` stores `(bound,
result)` at the index it returns and touches no other record: with no
existing call list for `name`, any id is ignored, the list `[(bound,
result)]` is created and 0 returned; with an existing list, a `None` id
appends and returns the new last index, an in-range integer id
overwrites that position and returns it, and an out-of-range id raises
(`IndexError`, modelled as `none`). -/
theorem save_call_amended {B R : Type} (s : PickleBackend B R)
    (n : String) (id : Option Nat) (b : B) (r : R) :
    (∀ s2 j, s.save_call n id b r = some (s2, j) →
      (∃ l, dlookup s2.function_calls n = some l ∧ l.get? j = some (b, r)) ∧
      s2.functions = s.functions ∧ s2.files = s.files ∧
      s2.call_files = s.call_files ∧ s2.external_srcs = s.external_srcs ∧
      s2.external_dsts = s.external_dsts ∧
      (∀ m, ¬ m = n →
        dlookup s2.function_calls m = dlookup s.function_calls m)) ∧
    (dlookup s.function_calls n = none →
      ∃ s2, s.save_call n id b r = some (s2, 0) ∧
        dlookup s2.function_calls n = some [(b, r)]) ∧
    (∀ datas, dlookup s.function_calls n = some datas →
      (id = none →
        ∃ s2, s.save_call n id b r = some (s2, datas.length) ∧
          dlookup s2.function_calls n = some (datas ++ [(b, r)])) ∧
      (∀ i, id = some i → i < datas.length →
        ∃ s2, s.save_call n id b r = some (s2, i) ∧
          dlookup s2.function_calls n = some (datas.set i (b, r))) ∧
      (∀ i, id = some i → datas.length ≤ i →
        s.save_call n id b r = none)) := by
  unfold PickleBackend.save_call
  cases hd : dlookup s.function_calls n with
  | none =>
    refine ⟨?_, ?_, ?_⟩
    · intro s2 j h
      have h0 := Option.some.inj h
      injection h0 with hs2 hj
      subst hs2
      subst hj
      refine ⟨⟨[(b, r)], dlookup_dinsert_self s.function_calls n [(b, r)], rfl⟩,
        rfl, rfl, rfl, rfl, rfl, ?_⟩
      intro m hm
      exact dlookup_dinsert_of_ne s.function_calls n [(b, r)] m hm
    · intro _
      exact ⟨_, rfl, dlookup_dinsert_self s.function_calls n [(b, r)]⟩
    · intro datas hdat
      exact absurd hdat (by simp)
  | some datas0 =>
    cases id with
    | none =>
      refine ⟨?_, ?_, ?_⟩
      · intro s2 j h
        have h0 := Option.some.inj h
        injection h0 with hs2 hj
        subst hs2
        subst hj
        refine ⟨⟨datas0 ++ [(b, r)],
          dlookup_dinsert_self s.function_calls n (datas0 ++ [(b, r)]),
          List.get?_concat_length datas0 (b, r)⟩, rfl, rfl, rfl, rfl, rfl, ?_⟩
        intro m hm
        exact dlookup_dinsert_of_ne s.function_calls n (datas0 ++ [(b, r)]) m hm
      · intro h
        exact absurd h (by simp)
      · intro datas hdat
        have h2 : datas = datas0 := (Option.some.inj hdat).symm
        subst h2
        refine ⟨?_, ?_, ?_⟩
        · intro _
          exact ⟨_, rfl, dlookup_dinsert_self s.function_calls n (datas ++ [(b, r)])⟩
        · intro i hi
          exact absurd hi (by simp)
        · intro i hi
          exact absurd hi (by simp)
    | some i0 =>
      by_cases hlen : i0 < datas0.length
      · simp only []
        rw [if_pos hlen]
        refine ⟨?_, ?_, ?_⟩
        · intro s2 j h
          have h0 := Option.some.inj h
          injection h0 with hs2 hj
          subst hs2
          subst hj
          refine ⟨⟨datas0.set i0 (b, r),
            dlookup_dinsert_self s.function_calls n (datas0.set i0 (b, r)),
            get?_set_self datas0 i0 (b, r) hlen⟩, rfl, rfl, rfl, rfl, rfl, ?_⟩
          intro m hm
          exact dlookup_dinsert_of_ne s.function_calls n (datas0.set i0 (b, r)) m hm
        · intro h
          exact absurd h (by simp)
        · intro datas hdat
          have h2 : datas = datas0 := (Option.some.inj hdat).symm
          subst h2
          refine ⟨?_, ?_, ?_⟩
          · intro hi
            exact absurd hi (by simp)
          · intro i hi hilen
            have h3 : i = i0 := Option.some.inj hi.symm
            subst h3
            exact ⟨_, rfl, dlookup_dinsert_self s.function_calls n (datas.set i (b, r))⟩
          · intro i hi hilen
            have h3 : i = i0 := Option.some.inj hi.symm
            subst h3
            exact absurd hlen (Nat.not_lt.mpr hilen)
      · simp only []
        rw [if_neg hlen]
        refine ⟨?_, ?_, ?_⟩
        · intro s2 j h
          exact absurd h (by simp)
        · intro h
          exact absurd h (by simp)
        · intro datas hdat
          have h2 : datas = datas0 := (Option.some.inj hdat).symm
          subst h2
          refine ⟨?_, ?_, ?_⟩
          · intro hi
            exact absurd hi (by simp)
          · intro i hi hilen
            have h3 : i = i0 := Option.some.inj hi.symm
            subst h3
            exact absurd hilen hlen
          · intro i hi hilen
            rfl

/-! ### C5: round trip of the call store -/

/-- C5: when no recorded call of the function has bound arguments
structurally equal to `bound`, appending via `save_call` with a `None`
id and then querying `find_call` with the same bound arguments returns
exactly the new index and the saved result. -/
theorem save_call_find_call_round_trip {B R : Type} [DecidableEq B]
    (s : PickleBackend B R) (n : String) (b : B) (r : R)
    (hno : ∀ datas, dlookup s.function_calls n = some datas →
      ∀ q ∈ datas, ¬ q.1 = b) :
    ∀ s2 i, s.save_call n none b r = some (s2, i) →
      s2.find_call n b = (some i, some r) := by
  intro s2 i h
  unfold PickleBackend.save_call at h
  cases hd : dlookup s.function_calls n with
  | none =>
    rw [hd] at h
    have h0 := Option.some.inj h
    injection h0 with hs2 hi
    subst hs2
    subst hi
    rw [find_call_congr _ _ b _ (dlookup_dinsert_self s.function_calls n [(b, r)])]
    simp [find_call_in]
  | some datas =>
    rw [hd] at h
    have h0 := Option.some.inj h
    injection h0 with hs2 hi
    subst hs2
    subst hi
    rw [find_call_congr _ _ b _
      (dlookup_dinsert_self s.function_calls n (datas ++ [(b, r)]))]
    exact find_call_in_append_last b r datas (hno datas hd)

/-- C5 witness: on the concrete store `c5_state` (one recorded call of
`f` with bound arguments 1), appending bound arguments 2 with result 20
yields index 1, and `find_call` then returns `(1, 20)`. -/
theorem save_call_find_call_round_trip_witness :
    PickleBackend.find_call c5_state2 "f" 2 = (some 1, some 20) :=
  save_call_find_call_round_trip c5_state "f" 2 20
    (by
      intro datas hd q hq
      have h2 : datas = [((1 : Nat), (10 : Nat))] := by
        simpa [c5_state, PickleBackend.empty, dlookup] using hd.symm
      subst h2
      simp only [List.mem_singleton] at hq
      subst hq
      decide)
    c5_state2 1 rfl

/-! ### C7: the label column of `Log.check` -/

theorem ljust_length (s : String) (w : Nat) :
    (ljust s w).length = max s.length w := by
  unfold ljust
  rw [String.length_append]
  have h : (String.mk (List.replicate (w - s.length) ' ')).length =
      w - s.length := by
    show (List.replicate (w - s.length) ' ').length = w - s.length
    exact List.length_replicate _ _
  rw [h]
  omega

/-- C7 counterexample: on a freshly initialized log, a 41-character label
pushes the running maximum to its cap of 40, but the emitted label is the
unpadded 41-character string, so the separating colon sits at column 41
rather than at the running maximum. -/
theorem check_column_counterexample :
    ((Log.init 0 false false).check "" long_label).1.maxlen = 40 ∧
    ((Log.init 0 false false).check "" long_label).2.length = 43 ∧
    ¬ (43 : Nat) = 40 + 2 := by
  refine ⟨by decide, by decide, by decide⟩

/-- C7 (amended): across `check` calls the running label-column maximum
never decreases and never exceeds 40 (it starts at 25), and each check
emits its label left-justified to the updated maximum, placing the colon
at column `max maximum label-length`; whenever the label is at most 40
characters long this column is exactly the running maximum. -/
theorem check_maxlen_amended (lg : Log) (tn msg : String)
    (hm : lg.maxlen ≤ 40) :
    lg.maxlen ≤ (lg.check tn msg).1.maxlen ∧
    (lg.check tn msg).1.maxlen ≤ 40 ∧
    (lg.check tn msg).2 =
      ljust (lg.eff tn msg) (lg.check tn msg).1.maxlen ++ ": " ∧
    (lg.check tn msg).2.length =
      max (lg.check tn msg).1.maxlen (lg.eff tn msg).length + 2 ∧
    ((lg.eff tn msg).length ≤ 40 →
      (lg.check tn msg).2.length = (lg.check tn msg).1.maxlen + 2) := by
  have hl : ((": " : String)).length = 2 := rfl
  by_cases hc : (lg.eff tn msg).length ≥ lg.maxlen
  · refine ⟨?_, ?_, ?_, ?_, ?_⟩
    · simp only [Log.check, if_pos hc]
      omega
    · simp only [Log.check, if_pos hc]
      omega
    · simp only [Log.check, if_pos hc]
    · simp only [Log.check, if_pos hc]
      rw [String.length_append, ljust_length, hl]
      omega
    · intro h40
      simp only [Log.check, if_pos hc]
      rw [String.length_append, ljust_length, hl]
      omega
  · refine ⟨?_, ?_, ?_, ?_, ?_⟩
    · simp only [Log.check, if_neg hc]
      omega
    · simp only [Log.check, if_neg hc]
      omega
    · simp only [Log.check, if_neg hc]
    · simp only [Log.check, if_neg hc]
      rw [String.length_append, ljust_length, hl]
      omega
    · intro h40
      simp only [Log.check, if_neg hc]
      rw [String.length_append, ljust_length, hl]
      omega

/-- C7 witness: the amended theorem evaluated on a freshly initialized
log and the label "hi". -/
theorem check_maxlen_amended_witness :
    (Log.init 0 false false).maxlen ≤
      ((Log.init 0 false false).check "" "hi").1.maxlen :=
  (check_maxlen_amended (Log.init 0 false false) "" "hi" (by decide)).1

/-! ### Lemmas on call-file entries under store operations -/

theorem fcf_eq_bind {B R : Type} (s : PickleBackend B R) (i : Nat)
    (n p : String) :
    s.find_call_file i n p =
    ((dlookup s.call_files p).bind (fun g => dlookup g n)).bind
      (fun h2 => dlookup h2 i) := by
  unfold PickleBackend.find_call_file
  cases dlookup s.call_files p with
  | none => rfl
  | some g =>
    simp only [Option.some_bind]
    cases dlookup g n with
    | none => rfl
    | some h2 => rfl

theorem not_mem_keys_of_none {α β : Type} [DecidableEq α]
    {l : List (α × β)} {k : α} (h : dlookup l k = none) :
    k ∉ l.map Prod.fst := by
  intro hk
  obtain ⟨q, hq, he⟩ := List.mem_map.1 hk
  exact (dlookup_none_iff l k).1 h q hq he

theorem keys_dinsert_of_some {α β : Type} [DecidableEq α]
    {l : List (α × β)} {k : α} {w : β} (h : dlookup l k = some w) (v : β) :
    (dinsert l k v).map Prod.fst = l.map Prod.fst := by
  induction l with
  | nil => simp [dlookup] at h
  | cons q rest ih =>
    obtain ⟨k0, v0⟩ := q
    by_cases hk : k0 = k
    · simp [dinsert, hk]
    · simp only [dlookup, if_neg hk] at h
      simp [dinsert, hk, ih h]

theorem nodup_keys_dinsert {α β : Type} [DecidableEq α] {l : List (α × β)}
    (h : (l.map Prod.fst).Nodup) (k : α) (v : β) :
    ((dinsert l k v).map Prod.fst).Nodup := by
  cases hk : dlookup l k with
  | some w => rw [keys_dinsert_of_some hk v]; exact h
  | none =>
    rw [dinsert_eq_append_of_none v hk, List.map_append]
    refine List.Nodup.append h (List.nodup_singleton _) ?_
    intro a ha hb
    rw [List.map_singleton, List.mem_singleton] at hb
    subst hb
    exact not_mem_keys_of_none hk ha

theorem step_saveCall_call_files {B R : Type} (s : PickleBackend B R)
    (n0 : String) (id : Option Nat) (b : B) (r : R) :
    (step s (Op.saveCall n0 id b r)).call_files = s.call_files := by
  simp only [step, PickleBackend.save_call]
  cases dlookup s.function_calls n0 with
  | none => rfl
  | some datas =>
    cases id with
    | none => rfl
    | some i0 =>
      by_cases hlen : i0 < datas.length
      · simp only []
        rw [if_pos hlen]
      · simp only []
        rw [if_neg hlen]

theorem fcf_save_call_file {B R : Type} (s : PickleBackend B R)
    (i0 : Nat) (n0 p0 d0 : String) (i : Nat) (n p d : String)
    (h : (s.save_call_file i0 n0 p0 d0).find_call_file i n p = some d) :
    s.find_call_file i n p = some d ∨ (i0 = i ∧ n0 = n ∧ p0 = p ∧ d0 = d) := by
  rw [fcf_eq_bind] at h ⊢
  have hcf : (s.save_call_file i0 n0 p0 d0).call_files =
      dinsert s.call_files p0
        (dinsert ((dlookup s.call_files p0).getD []) n0
          (dinsert ((dlookup ((dlookup s.call_files p0).getD []) n0).getD [])
            i0 d0)) := rfl
  rw [hcf] at h
  by_cases hp : p = p0
  · subst hp
    rw [dlookup_dinsert_self] at h
    simp only [Option.some_bind] at h
    by_cases hn : n = n0
    · subst hn
      rw [dlookup_dinsert_self] at h
      simp only [Option.some_bind] at h
      by_cases hi : i = i0
      · subst hi
        rw [dlookup_dinsert_self] at h
        exact Or.inr ⟨rfl, rfl, rfl, Option.some.inj h⟩
      · rw [dlookup_dinsert_of_ne _ _ _ _ hi] at h
        left
        cases hg : dlookup s.call_files p with
        | none =>
          rw [hg] at h
          simp [dlookup] at h
        | some g0 =>
          rw [hg] at h
          simp only [Option.getD_some] at h
          simp only [Option.some_bind]
          cases hgn : dlookup g0 n with
          | none =>
            rw [hgn] at h
            simp [dlookup] at h
          | some h0 =>
            rw [hgn] at h
            simp only [Option.getD_some] at h
            simp only [Option.some_bind]
            exact h
    · rw [dlookup_dinsert_of_ne _ _ _ _ hn] at h
      left
      cases hg : dlookup s.call_files p with
      | none =>
        rw [hg] at h
        simp [dlookup] at h
      | some g0 =>
        rw [hg] at h
        simp only [Option.getD_some] at h
        simp only [Option.some_bind]
        exact h
  · rw [dlookup_dinsert_of_ne _ _ _ _ hp] at h
    exact Or.inl h

theorem fcf_save_call_files {B R : Type} (digests : List (String × String)) :
    ∀ (s : PickleBackend B R) (i0 : Nat) (n0 : String) (i : Nat)
      (n p d : String),
    (s.save_call_files i0 n0 digests).find_call_file i n p = some d →
    s.find_call_file i n p = some d ∨
      (i0 = i ∧ n0 = n ∧ (p, d) ∈ digests) := by
  induction digests with
  | nil =>
    intro s i0 n0 i n p d h
    exact Or.inl h
  | cons pd rest ih =>
    intro s i0 n0 i n p d h
    have h2 : ((s.save_call_file i0 n0 pd.1 pd.2).save_call_files i0 n0
        rest).find_call_file i n p = some d := h
    rcases ih (s.save_call_file i0 n0 pd.1 pd.2) i0 n0 i n p d h2 with
      h3 | ⟨hi, hn, hmem⟩
    · rcases fcf_save_call_file s i0 n0 pd.1 pd.2 i n p d h3 with
        h4 | ⟨hi, hn, hp, hd⟩
      · exact Or.inl h4
      · refine Or.inr ⟨hi, hn, ?_⟩
        rw [← hp, ← hd]
        exact List.mem_cons_self _ _
    · exact Or.inr ⟨hi, hn, List.mem_cons_of_mem _ hmem⟩

theorem fcf_delete_function {B R : Type} (s : PickleBackend B R)
    (n0 : String) (hnd : (s.call_files.map Prod.fst).Nodup)
    (i : Nat) (n p d : String)
    (h : (s.delete_function n0).find_call_file i n p = some d) :
    s.find_call_file i n p = some d := by
  rw [fcf_eq_bind] at h ⊢
  have hcf : (s.delete_function n0).call_files =
      purge_call_files s.call_files n0 := rfl
  rw [hcf] at h
  by_cases hn : n = n0
  · subst hn
    exfalso
    cases hg : dlookup (purge_call_files s.call_files n) p with
    | none =>
      rw [hg] at h
      simp at h
    | some g =>
      rw [hg] at h
      simp only [Option.some_bind] at h
      rw [purge_lookup_derased hg] at h
      simp at h
  · rw [purge_bind_of_nodup hnd n0 n p hn] at h
    exact h

theorem fcf_delete_file {B R : Type} (s : PickleBackend B R) (p0 : String)
    (i : Nat) (n p d : String)
    (h : (s.delete_file p0).find_call_file i n p = some d) :
    s.find_call_file i n p = some d := by
  rw [fcf_eq_bind] at h ⊢
  have hcf : (s.delete_file p0).call_files = derase s.call_files p0 := rfl
  rw [hcf] at h
  by_cases hp : p = p0
  · subst hp
    rw [dlookup_derase_self] at h
    simp at h
  · rw [dlookup_derase_of_ne _ _ _ hp] at h
    exact h

theorem fcf_step {B R : Type} (s : PickleBackend B R) (op : Op B R)
    (hnd : (s.call_files.map Prod.fst).Nodup)
    (i : Nat) (n p d : String)
    (h : (step s op).find_call_file i n p = some d) :
    s.find_call_file i n p = some d ∨ op_records op i n p d := by
  cases op with
  | saveFunction n2 d2 =>
    exact Or.inl (fcf_delete_function s n2 hnd i n p d h)
  | deleteFunction n2 =>
    exact Or.inl (fcf_delete_function s n2 hnd i n p d h)
  | saveCall n2 id b r =>
    left
    rw [fcf_eq_bind] at h ⊢
    rw [step_saveCall_call_files s n2 id b r] at h
    exact h
  | saveCallFile i2 n2 p2 d2 =>
    exact fcf_save_call_file s i2 n2 p2 d2 i n p d h
  | saveExternalFiles n2 i2 srcs dsts digests =>
    rcases fcf_save_call_files digests _ i2 n2 i n p d h with h2 | h2
    · exact Or.inl h2
    · exact Or.inr h2
  | saveFile p2 m2 d2 =>
    exact Or.inl h
  | deleteFile p2 =>
    exact Or.inl (fcf_delete_file s p2 i n p d h)

theorem opConsistent_records_files {B R : Type} (s : PickleBackend B R)
    (op : Op B R) (hc : opConsistent s op = true) (i : Nat) (n p d : String)
    (hrec : op_records op i n p d) :
    ∃ m, dlookup s.files p = some (m, d) := by
  cases op with
  | saveFunction n2 d2 => exact hrec.elim
  | deleteFunction n2 => exact hrec.elim
  | saveCall n2 id b r => exact hrec.elim
  | saveCallFile i2 n2 p2 d2 =>
    obtain ⟨hi, hn, hp, hd⟩ := hrec
    subst hp
    subst hd
    simp only [opConsistent] at hc
    cases hf : dlookup s.files p2 with
    | none =>
      rw [hf] at hc
      exact absurd hc (by simp)
    | some md =>
      obtain ⟨m2, dd⟩ := md
      rw [hf] at hc
      have h3 : dd = d2 := by simpa using hc
      exact ⟨m2, by rw [h3]⟩
  | saveExternalFiles n2 i2 srcs dsts digests =>
    obtain ⟨hi, hn, hmem⟩ := hrec
    simp only [opConsistent] at hc
    rw [List.all_eq_true] at hc
    have h2 := hc (p, d) hmem
    cases hf : dlookup s.files p with
    | none =>
      rw [hf] at h2
      exact absurd h2 (by simp)
    | some md =>
      obtain ⟨m2, dd⟩ := md
      rw [hf] at h2
      have h3 : dd = d := by simpa using h2
      exact ⟨m2, by rw [h3]⟩
  | saveFile p2 m2 d2 => exact hrec.elim
  | deleteFile p2 => exact hrec.elim

theorem nodup_keys_save_call_files {B R : Type}
    (digests : List (String × String)) :
    ∀ (s : PickleBackend B R) (i0 : Nat) (n0 : String),
    (s.call_files.map Prod.fst).Nodup →
    (((s.save_call_files i0 n0 digests).call_files).map Prod.fst).Nodup := by
  induction digests with
  | nil => intro s i0 n0 h; exact h
  | cons pd rest ih =>
    intro s i0 n0 h
    exact ih (s.save_call_file i0 n0 pd.1 pd.2) i0 n0
      (nodup_keys_dinsert h pd.1 _)

theorem step_nodup {B R : Type} (s : PickleBackend B R) (op : Op B R)
    (h : (s.call_files.map Prod.fst).Nodup) :
    (((step s op).call_files).map Prod.fst).Nodup := by
  cases op with
  | saveFunction n2 d2 =>
    exact List.Nodup.sublist (keys_purge_sublist s.call_files n2) h
  | deleteFunction n2 =>
    exact List.Nodup.sublist (keys_purge_sublist s.call_files n2) h
  | saveCall n2 id b r =>
    rw [show ((step s (Op.saveCall n2 id b r)).call_files) = s.call_files from
      step_saveCall_call_files s n2 id b r]
    exact h
  | saveCallFile i2 n2 p2 d2 =>
    exact nodup_keys_dinsert h p2 _
  | saveExternalFiles n2 i2 srcs dsts digests =>
    exact nodup_keys_save_call_files digests _ i2 n2 h
  | saveFile p2 m2 d2 => exact h
  | deleteFile p2 =>
    exact List.Nodup.sublist (keys_derase_sublist s.call_files p2) h

theorem c6_aux {B R : Type} (ops : List (Op B R)) :
    ∀ (s : PickleBackend B R),
    rec_consistent s ops = true →
    (s.call_files.map Prod.fst).Nodup →
    ∀ i n p d, (execFrom s ops).find_call_file i n p = some d →
      s.find_call_file i n p = some d ∨
      ∃ t, t < ops.length ∧
        (∃ op, ops.get? t = some op ∧ op_records op i n p d) ∧
        ∃ m, dlookup (execFrom s (ops.take t)).files p = some (m, d) := by
  induction ops with
  | nil =>
    intro s _ _ i n p d h
    exact Or.inl h
  | cons op rest ih =>
    intro s hcons hnd i n p d h
    simp only [rec_consistent, Bool.and_eq_true] at hcons
    obtain ⟨hc1, hc2⟩ := hcons
    have h2 : (execFrom (step s op) rest).find_call_file i n p = some d := h
    rcases ih (step s op) hc2 (step_nodup s op hnd) i n p d h2 with
      hbase | ⟨t, ht, hop, m, hm⟩
    · rcases fcf_step s op hnd i n p d hbase with hold | hwrote
      · exact Or.inl hold
      · refine Or.inr ⟨0, Nat.succ_pos _, ⟨op, rfl, hwrote⟩, ?_⟩
        exact opConsistent_records_files s op hc1 i n p d hwrote
    · refine Or.inr ⟨t + 1, Nat.succ_lt_succ ht, ?_, ⟨m, hm⟩⟩
      obtain ⟨op2, hget, hrec2⟩ := hop
      exact ⟨op2, by simpa using hget, hrec2⟩

/-! ### C6: the call-file / file-record cross-relation invariant -/

/-- C6 counterexample: the claim fails for the one-operation sequence
`c6_ops`, which records the call-file entry `("p", "f", 0) → "d"` from
the fresh store: the entry is present afterwards, yet at its recording
time (the only operation of the sequence) the file relation held no
entry at all for "p". -/
theorem call_file_claim_false : ¬ call_file_claim := by
  intro hclaim
  obtain ⟨t, ht, _, m, hm⟩ := hclaim c6_ops 0 "f" "p" "d" (by decide)
  have ht0 : t = 0 := Nat.lt_one_iff.mp (by simpa [c6_ops] using ht)
  subst ht0
  simp [c6_ops, exec, execFrom, PickleBackend.empty, dlookup] at hm

/-- C6 (amended): the store operations alone do not maintain the
cross-relation invariant (see the counterexample); it holds for
consistently recorded operation sequences, as produced by the cached-call
engine: if every call-file recording happens while the file relation
currently holds the recorded digest for the path, then every call-file
entry `(P, F, i) → d` of the final state was written by some operation of
the sequence at a time when the file relation held `(mtime, d)` for `P`. -/
theorem call_file_consistent_recording {B R : Type} (ops : List (Op B R))
    (hcons : rec_consistent (PickleBackend.empty B R) ops = true) :
    ∀ i n p d, (exec ops).find_call_file i n p = some d →
      ∃ t, t < ops.length ∧
        (∃ op, ops.get? t = some op ∧ op_records op i n p d) ∧
        ∃ m, dlookup (exec (ops.take t)).files p = some (m, d) := by
  intro i n p d h
  rcases c6_aux ops (PickleBackend.empty B R) hcons (by simp [PickleBackend.empty])
      i n p d h with h0 | h1
  · exact absurd h0 (by simp [PickleBackend.find_call_file, PickleBackend.empty, dlookup])
  · exact h1

/-- C6 amended witness: on the consistently recorded sequence `c6_ops2`
(save the file digest, then record the call-file entry), the entry for
`("p", "f", 0) → "d"` was recorded at time 1, when the file relation held
`(3, "d")` for "p". -/
theorem call_file_consistent_recording_witness :
    ∃ t, t < c6_ops2.length ∧
      (∃ op, c6_ops2.get? t = some op ∧ op_records op 0 "f" "p" "d") ∧
      ∃ m, dlookup (exec (c6_ops2.take t)).files "p" = some (m, "d") :=
  call_file_consistent_recording c6_ops2 (by decide) 0 "f" "p" "d" (by decide)

end Fbuild
